import Mathlib

/-!
Verification of the MDX sanitization engine of slim-doc-generator
(src/slim_doc_generator/utils/helpers.py), shallowly embedded over
`List Char`.  Pure functions of the source are translated to Lean
functions; the regex substitutions are translated to explicit
character-level state machines that reproduce the scanning semantics of
the Python `re` module for the concrete patterns used in the source.
-/

/-- The backtick character (U+0060), written numerically. -/
def bq : Char := Char.ofNat 96

/-- The left curly brace character (U+007B). -/
def lb : Char := Char.ofNat 123

/-- The right curly brace character (U+007D). -/
def rb : Char := Char.ofNat 125

/-- The backslash character. -/
def bs : Char := '\\'

/-- Python `\s` (ASCII part): space, tab, newline, carriage return,
vertical tab, form feed. -/
def isPySpace (c : Char) : Bool :=
  c = ' ' || c = '\t' || c = '\n' || c = '\r' || c = Char.ofNat 11 || c = Char.ofNat 12

/-- Python `\w` (ASCII part): letters, digits, underscore. -/
def isWordChar (c : Char) : Bool := c.isAlphanum || c = '_'

/-- Character class of tag-name characters in the `_process_text`
regex `<([A-Za-z][A-Za-z0-9_.-]*)...>`: letters, digits, `_`, `.`, `-`. -/
def isTagNameChar (c : Char) : Bool := c.isAlphanum || c = '_' || c = '.' || c = '-'

/-- The character class `[a-zA-Z\/]` used in the angle-bracket
lookarounds of `_escape_special_chars`. -/
def isAngClass (c : Char) : Bool := c.isAlpha || c = '/'

/-- Lift `isAngClass` to an optional character (absent character fails
the class, as at string boundaries). -/
def lsOpt : Option Char → Bool
  | none => false
  | some c => isAngClass c

/-- Guard of the brace substitutions `(?<!\\){` and `(?<!\\)}`:
fire unless the previous character is a backslash. -/
def gBrace (p : Option Char) (_ : Option Char) : Bool := !(p == some bs)

/-- Guard of `(?<!\\)<(?![a-zA-Z\/])`: previous character is not a
backslash and next character is not a letter or slash. -/
def gLt (p n : Option Char) : Bool := !(p == some bs) && !(lsOpt n)

/-- Guard of `(?<![a-zA-Z\/])(?<!\\)>`: previous character is neither a
letter, a slash, nor a backslash. -/
def gGt (p _ : Option Char) : Bool := !(lsOpt p) && !(p == some bs)

/-- One `re.sub` pass that rewrites the single character `e` to
backslash-`e` whenever the guard `g` holds of the original previous
character and the original next character; mirrors a Python
`re.sub` whose pattern is `e` decorated with zero-width lookarounds. -/
def subGen (e : Char) (g : Option Char → Option Char → Bool) : Option Char → List Char → List Char
  | _, [] => []
  | p, c :: r =>
    if c = e ∧ g p r.head? = true then bs :: c :: subGen e g (some c) r
    else c :: subGen e g (some c) r

/-- `_escape_special_chars`: the four sequential `re.sub` passes of the
source, in source order (`{`, `}`, `<`, `>`). -/
def escape_special_chars (l : List Char) : List Char :=
  subGen '>' gGt none (subGen '<' gLt none (subGen rb gBrace none (subGen lb gBrace none l)))

/-- The static set of recognized HTML element names from
`_is_common_html_tag`. -/
def commonTags : List String :=
  ["div", "p", "h1", "h2", "h3", "h4", "h5", "h6", "header", "footer", "main",
   "section", "article", "aside", "nav", "figure", "figcaption", "blockquote",
   "pre", "code", "ul", "ol", "li", "dl", "dt", "dd", "table", "thead", "tbody",
   "tr", "td", "th", "form", "fieldset", "legend", "hr",
   "a", "span", "strong", "em", "i", "b", "u", "s", "sub", "sup", "mark", "q",
   "cite", "time", "address", "abbr", "dfn", "var", "samp", "kbd", "data",
   "small", "br", "wbr", "img", "picture", "source", "iframe", "embed",
   "object", "param", "audio", "video", "track", "canvas", "map", "area",
   "math", "svg",
   "input", "button", "select", "option", "optgroup", "textarea", "label",
   "datalist", "output", "progress", "meter"]

/-- `_is_common_html_tag`: the lowercased name is in the static set, or
the first character is uppercase (component heuristic). -/
def is_common_html_tag (nm : List Char) : Bool :=
  commonTags.any (fun s => s.toList == nm.map Char.toLower) ||
    (match nm with
     | c :: _ => c.isUpper
     | [] => false)

/-- `text[start:end].replace(chr(60), bs ++ chr(60)).replace(chr(62), bs ++ chr(62))`:
escape every angle bracket inside a matched tag span. -/
def escapeTagSpan (s : List Char) : List Char :=
  (s.map (fun c => if c = '<' then [bs, '<'] else if c = '>' then [bs, '>'] else [c])).flatten

/-- Emission step of `_process_text` at a successful tag match: escape
the pending prose chunk, then the span (preserved if the tag
classifies as common/component, angle-escaped otherwise), then the
processed remainder. -/
def emitTag (prose nm tl : List Char) (rest : List Char) : List Char :=
  escape_special_chars prose ++
    (if is_common_html_tag nm then '<' :: nm ++ tl ++ ['>']
     else escapeTagSpan ('<' :: nm ++ tl ++ ['>'])) ++ rest

/-- State machine equivalent of `_process_text`'s scan with
`re.finditer` over `<([A-Za-z][A-Za-z0-9_.-]*)(?:\s+[^>]*)?>`.
`prose` is the prose chunk accumulated since the last match; the middle
argument is the candidate tag being parsed: `none` when not in a
candidate, `some (nm, none)` after `<` while reading the name (empty
name means just after `<`), and `some (nm, some tl)` while reading a
whitespace-initiated attribute tail. -/
def procTextAux : List Char → Option (List Char × Option (List Char)) → List Char → List Char
  | prose, none, [] => escape_special_chars prose
  | prose, some (nm, none), [] => escape_special_chars (prose ++ '<' :: nm)
  | prose, some (nm, some tl), [] => escape_special_chars (prose ++ '<' :: nm ++ tl)
  | prose, none, c :: r =>
    if c = '<' then procTextAux prose (some ([], none)) r
    else procTextAux (prose ++ [c]) none r
  | prose, some (nm, none), c :: r =>
    if nm = [] then
      (if c.isAlpha then procTextAux prose (some ([c], none)) r
       else if c = '<' then procTextAux (prose ++ ['<']) (some ([], none)) r
       else procTextAux (prose ++ ['<', c]) none r)
    else
      (if c = '>' then emitTag prose nm [] (procTextAux [] none r)
       else if isTagNameChar c then procTextAux prose (some (nm ++ [c], none)) r
       else if isPySpace c then procTextAux prose (some (nm, some [c])) r
       else if c = '<' then procTextAux (prose ++ '<' :: nm) (some ([], none)) r
       else procTextAux (prose ++ '<' :: nm ++ [c]) none r)
  | prose, some (nm, some tl), c :: r =>
    if c = '>' then emitTag prose nm tl (procTextAux [] none r)
    else procTextAux prose (some (nm, some (tl ++ [c]))) r

/-- `_process_text` on a prose segment. -/
def process_text (t : List Char) : List Char := procTextAux [] none t

/-- State machine equivalent of `_process_line`'s scan with
`re.finditer` over the inline-code pattern (backtick, one or more
non-backticks, backtick).  `prose` is the prose accumulated since the
last code span; the middle argument is `some pend` while inside a
tentative code span whose body so far is `pend`. -/
def procInlineAux : List Char → Option (List Char) → List Char → List Char
  | prose, none, [] => process_text prose
  | prose, some pend, [] => process_text (prose ++ bq :: pend)
  | prose, none, c :: r =>
    if c = bq then procInlineAux prose (some []) r
    else procInlineAux (prose ++ [c]) none r
  | prose, some pend, c :: r =>
    if c = bq then
      (if pend = [] then procInlineAux (prose ++ [bq]) (some []) r
       else process_text prose ++ bq :: pend ++ bq :: procInlineAux [] none r)
    else procInlineAux prose (some (pend ++ [c])) r

/-- The heading exemption `^#{1,6}\s` of `_process_line`. -/
def isHeading (l : List Char) : Bool :=
  let n := (l.takeWhile (fun c => c = '#')).length
  decide (1 ≤ n) && decide (n ≤ 6) &&
    (match (l.drop n).head? with
     | some c => isPySpace c
     | none => false)

/-- The blockquote exemption `^>\s` of `_process_line`. -/
def isBlockquote : List Char → Bool
  | c :: d :: _ => c = '>' && isPySpace d
  | _ => false

/-- The list-bullet exemption `^[-*+]\s` of `_process_line`. -/
def isBullet : List Char → Bool
  | c :: d :: _ => (c = '-' || c = '*' || c = '+') && isPySpace d
  | _ => false

/-- A line skipped by `_process_line`'s markdown-structure check. -/
def isStructural (l : List Char) : Bool := isHeading l || isBlockquote l || isBullet l

/-- `_process_line`: structural lines pass through, other lines go
through the inline-code-aware segmenter. -/
def process_line (l : List Char) : List Char :=
  if isStructural l then l else procInlineAux [] none l

/-- The fence-delimiter test `re.match(r'^` ++ "```" ++ `(\w*)$', line)` of
`escape_mdx_special_characters`: the whole (untrimmed) line is three
backticks followed by word characters only. -/
def isFenceLine : List Char → Bool
  | c1 :: c2 :: c3 :: t => c1 = bq && c2 = bq && c3 = bq && t.all isWordChar
  | _ => false

/-- The line loop of `escape_mdx_special_characters`, threading the
`in_code_block` flag. -/
def processLines : Bool → List (List Char) → List (List Char)
  | _, [] => []
  | b, l :: r =>
    if isFenceLine l then l :: processLines (!b) r
    else if b then l :: processLines b r
    else process_line l :: processLines b r

/-- The fence state after consuming a list of lines, starting from `b`. -/
def stateAfter : Bool → List (List Char) → Bool
  | b, [] => b
  | b, l :: r => stateAfter (if isFenceLine l then !b else b) r

/-- Python `content.split(chr(10))`. -/
def splitNL : List Char → List (List Char)
  | [] => [[]]
  | c :: r =>
    if c = '\n' then [] :: splitNL r
    else
      match splitNL r with
      | [] => [[c]]
      | h :: t => (c :: h) :: t

/-- Python `(chr(10)).join(lines)`. -/
def joinNL : List (List Char) → List Char
  | [] => []
  | [l] => l
  | l :: ls => l ++ '\n' :: joinNL ls

/-- `escape_mdx_special_characters`: empty content is returned as is,
otherwise the content is split into lines, processed with the fence
state machine starting outside a fence, and joined back. -/
def escape_mdx_special_characters (content : List Char) : List Char :=
  if content = [] then content else joinNL (processLines false (splitNL content))

/-- Number of lines of a text, as Python `len(s.split(chr(10)))`. -/
def numLines (s : List Char) : Nat := (splitNL s).length

/-- Prefix test on character lists. -/
def startsWith : List Char → List Char → Bool
  | [], _ => true
  | _ :: _, [] => false
  | p :: ps, c :: cs => p = c && startsWith ps cs

/-- Python `str.strip()` (ASCII whitespace). -/
def pyStrip (l : List Char) : List Char :=
  ((l.dropWhile isPySpace).reverse.dropWhile isPySpace).reverse

/-- Lookbehind class of `clean_api_doc`'s Fix 1,
`(?<![a-zA-Z/="`+"`"+`])`: the previous character must not be a letter,
slash, equals sign, double quote, or backtick (absent passes). -/
def fix1PrevOK : Option Char → Bool
  | none => true
  | some d => !(d.isAlpha || d = '/' || d = '=' || d = '"' || d = bq)

/-- State machine equivalent of Fix 1 of `clean_api_doc`:
`re.sub` over the pattern lookbehind + `(<)([A-Za-z][A-Za-z0-9_]*)(>)`
with replacement backslash-`<` name backslash-`>`.  The first argument
is the original previous character, the second the candidate tag name
(`some []` right after an eligible `<`). -/
def fix1Aux : Option Char → Option (List Char) → List Char → List Char
  | _, none, [] => []
  | _, some nm, [] => '<' :: nm
  | p, none, c :: r =>
    if c = '<' ∧ fix1PrevOK p = true then fix1Aux (some c) (some []) r
    else c :: fix1Aux (some c) none r
  | _, some nm, c :: r =>
    if nm = [] then
      (if c.isAlpha then fix1Aux (some c) (some [c]) r
       else if c = '<' ∧ fix1PrevOK (some '<') = true then '<' :: fix1Aux (some c) (some []) r
       else '<' :: c :: fix1Aux (some c) none r)
    else
      (if c = '>' then bs :: '<' :: (nm ++ bs :: '>' :: fix1Aux (some c) none r)
       else if isWordChar c then fix1Aux (some c) (some (nm ++ [c])) r
       else if c = '<' ∧ fix1PrevOK nm.getLast? = true then '<' :: (nm ++ fix1Aux (some c) (some []) r)
       else '<' :: (nm ++ c :: fix1Aux (some c) none r))

/-- Fix 1 of `clean_api_doc`. -/
def fix1 (l : List Char) : List Char := fix1Aux none none l

/-- The fence test of `clean_api_doc`'s Fix 2 loop: the stripped line
equals three backticks, or matches three backticks followed by word
characters (the first disjunct of the source is subsumed by the second). -/
def fix2Fence (l : List Char) : Bool := isFenceLine (pyStrip l)

/-- Whether the Fix 2 loop of `clean_api_doc` reaches a call of
`re.sub` on a line: it does so for the first non-fence line outside a
fence that contains both `<` and `>`.  The pattern of that `re.sub`
contains the character class `[A-Za-Z0-9_]`, whose range `a-Z` is
reversed, so the call raises `re.error` (bad character range a-Z);
hence this predicate decides whether Fix 2 raises. -/
def fix2Raises : Bool → List (List Char) → Bool
  | _, [] => false
  | b, l :: r =>
    if fix2Fence l then fix2Raises (!b) r
    else if !b && l.contains '<' && l.contains '>' then true
    else fix2Raises b r

/-- Fuelled literal substring replacement (Python `str.replace`,
leftmost non-overlapping); the fuel is only a structural-recursion
device and is always supplied large enough. -/
def replaceSubFuel : Nat → List Char → List Char → List Char → List Char
  | 0, _, _, l => l
  | _, _, _, [] => []
  | f + 1, pat, rep, c :: r =>
    if startsWith pat (c :: r) then rep ++ replaceSubFuel f pat rep ((c :: r).drop pat.length)
    else c :: replaceSubFuel f pat rep r

/-- Python `str.replace` on character lists. -/
def replaceSub (pat rep l : List Char) : List Char := replaceSubFuel (l.length + 1) pat rep l

/-- The fixed substitution table of Fix 3 of `clean_api_doc`, in source
order. -/
def problemSeqs : List (List Char × List Char) :=
  [("<ES>".toList, "\\<ES\\>".toList),
   ("<Type>".toList, "\\<Type\\>".toList),
   ("<Generic>".toList, "\\<Generic\\>".toList),
   ("<Value>".toList, "\\<Value\\>".toList),
   ("<Key>".toList, "\\<Key\\>".toList),
   ("<Parameter>".toList, "\\<Parameter\\>".toList),
   ("<Class>".toList, "\\<Class\\>".toList),
   ("<Method>".toList, "\\<Method\\>".toList),
   ("<Function>".toList, "\\<Function\\>".toList),
   ("<Property>".toList, "\\<Property\\>".toList)]

/-- Fix 3 of `clean_api_doc`: the literal replacements applied in
order. -/
def fix3 (l : List Char) : List Char :=
  problemSeqs.foldl (fun acc pr => replaceSub pr.1 pr.2 acc) l

/-- The body of `clean_api_doc`'s `try` block up to the final write:
Fix 1, then the Fix 2 line loop (which raises `re.error` as soon as it
calls `re.sub` with its malformed pattern, i.e. on the first non-fence
line outside a fence containing both angle brackets), then Fix 3 on the
rejoined lines. -/
def cleanTransform (content : List Char) : Except String (List Char) :=
  let c1 := fix1 content
  if fix2Raises false (splitNL c1) = true then Except.error "bad character range a-Z"
  else Except.ok (fix3 (joinNL (splitNL c1)))

/-- `clean_api_doc` acting on the on-disk file content
(`none` = file missing, in which case the function returns at once).
Any exception inside the `try` block is caught before the write-back,
so the file keeps its original content in that case. -/
def clean_api_doc : Option (List Char) → Option (List Char)
  | none => none
  | some content =>
    match cleanTransform content with
    | Except.error _ => some content
    | Except.ok c2 => some c2

/-- Invariant stating that every occurrence of `e` in the list is
already immune to the substitution guard `g` (given the previous
character `p` at entry): the pass `subGen e g` is the identity on lists
satisfying it. -/
def InvG (e : Char) (g : Option Char → Option Char → Bool) : Option Char → List Char → Prop
  | _, [] => True
  | p, c :: r => (c = e → g p r.head? = false) ∧ InvG e g (some c) r

lemma subGen_head (e : Char) (g : Option Char → Option Char → Bool) (p : Option Char)
    (l : List Char) :
    (subGen e g p l).head? = l.head? ∨
      (l.head? = some e ∧ (subGen e g p l).head? = some bs) := by
  cases l with
  | nil => exact Or.inl rfl
  | cons c r =>
    by_cases h : c = e ∧ g p r.head? = true
    · exact Or.inr ⟨by simp [h.1], by simp [subGen, h]⟩
    · exact Or.inl (by simp [subGen, h])

lemma g_head_transfer {e' : Char} {g g' : Option Char → Option Char → Bool}
    (hg : ∀ p, g p (some e') = g p (some bs)) (p q : Option Char) (l : List Char) :
    g p ((subGen e' g' q l).head?) = g p l.head? := by
  rcases subGen_head e' g' q l with h | ⟨h1, h2⟩
  · rw [h]
  · rw [h2, h1, hg]

lemma invG_subGen (e : Char) (g : Option Char → Option Char → Bool) (he : e ≠ bs)
    (hbs : ∀ x, g (some bs) x = false) (hg : ∀ p, g p (some e) = g p (some bs)) :
    ∀ (l : List Char) (p : Option Char), InvG e g p (subGen e g p l) := by
  intro l
  induction l with
  | nil => intro p; simp [subGen, InvG]
  | cons c r ih =>
    intro p
    by_cases h : c = e ∧ g p r.head? = true
    · simp only [subGen, if_pos h]
      refine ⟨fun hbe => absurd hbe.symm he, fun _ => hbs _, ih (some c)⟩
    · simp only [subGen, if_neg h]
      refine ⟨fun hce => ?_, ih (some c)⟩
      have hgf : g p r.head? = false := by
        cases hx : g p r.head? with
        | false => rfl
        | true => exact absurd ⟨hce, hx⟩ h
      rw [g_head_transfer hg p (some c) r]
      exact hgf

lemma subGen_id_of_invG (e : Char) (g : Option Char → Option Char → Bool) :
    ∀ (l : List Char) (p : Option Char), InvG e g p l → subGen e g p l = l := by
  intro l
  induction l with
  | nil => intro p _; rfl
  | cons c r ih =>
    intro p h
    obtain ⟨h1, h2⟩ := h
    have hn : ¬(c = e ∧ g p r.head? = true) := by
      rintro ⟨hc, hgt⟩
      rw [h1 hc] at hgt
      exact Bool.false_ne_true hgt
    simp [subGen, if_neg hn, ih (some c) h2]

lemma invG_preserved (e : Char) (g : Option Char → Option Char → Bool)
    (e' : Char) (g' : Option Char → Option Char → Bool)
    (hee' : e ≠ e') (he : e ≠ bs) (hg : ∀ p, g p (some e') = g p (some bs)) :
    ∀ (l : List Char) (p : Option Char), InvG e g p l → InvG e g p (subGen e' g' p l) := by
  intro l
  induction l with
  | nil => intro p _; simp [subGen, InvG]
  | cons c r ih =>
    intro p h
    obtain ⟨h1, h2⟩ := h
    by_cases hc : c = e' ∧ g' p r.head? = true
    · simp only [subGen, if_pos hc]
      exact ⟨fun hbe => absurd hbe.symm he,
             fun hce => absurd (hce ▸ hc.1 : e = e') hee',
             ih (some c) h2⟩
    · simp only [subGen, if_neg hc]
      refine ⟨fun hce => ?_, ih (some c) h2⟩
      rw [g_head_transfer hg p (some c) r]
      exact h1 hce

lemma invG_lb_esc : ∀ m, InvG lb gBrace none (escape_special_chars m) := by
  intro m
  unfold escape_special_chars
  exact invG_preserved lb gBrace '>' gGt (by decide) (by decide) (fun _ => rfl) _ none
    (invG_preserved lb gBrace '<' gLt (by decide) (by decide) (fun _ => rfl) _ none
      (invG_preserved lb gBrace rb gBrace (by decide) (by decide) (fun _ => rfl) _ none
        (invG_subGen lb gBrace (by decide) (fun _ => rfl) (fun _ => rfl) m none)))

lemma invG_rb_esc : ∀ m, InvG rb gBrace none (escape_special_chars m) := by
  intro m
  unfold escape_special_chars
  exact invG_preserved rb gBrace '>' gGt (by decide) (by decide) (fun _ => rfl) _ none
    (invG_preserved rb gBrace '<' gLt (by decide) (by decide) (fun _ => rfl) _ none
      (invG_subGen rb gBrace (by decide) (fun _ => rfl) (fun _ => rfl) _ none))

lemma invG_lt_esc : ∀ m, InvG '<' gLt none (escape_special_chars m) := by
  intro m
  unfold escape_special_chars
  exact invG_preserved '<' gLt '>' gGt (by decide) (by decide) (fun _ => rfl) _ none
    (invG_subGen '<' gLt (by decide) (fun _ => rfl) (fun _ => rfl) _ none)

lemma invG_gt_esc : ∀ m, InvG '>' gGt none (escape_special_chars m) := by
  intro m
  unfold escape_special_chars
  exact invG_subGen '>' gGt (by decide) (fun _ => rfl) (fun _ => rfl) _ none

/-- Claim C1 (amended): the character-level escaper `_escape_special_chars`
— the stage whose escaping is driven by negative lookbehinds for an
existing escape marker — is idempotent: applying it to its own output
yields that output unchanged, for every input string.  (The full
sanitizer `escape_mdx_special_characters` is not idempotent in general;
see the counterexample.) -/
theorem c1_escape_special_chars_idempotent :
    ∀ l : List Char, escape_special_chars (escape_special_chars l) = escape_special_chars l := by
  intro l
  set m := escape_special_chars l with hm
  have i1 := invG_lb_esc l
  have i2 := invG_rb_esc l
  have i3 := invG_lt_esc l
  have i4 := invG_gt_esc l
  rw [← hm] at i1 i2 i3 i4
  show subGen '>' gGt none (subGen '<' gLt none (subGen rb gBrace none (subGen lb gBrace none m))) = m
  rw [subGen_id_of_invG lb gBrace m none i1, subGen_id_of_invG rb gBrace m none i2,
    subGen_id_of_invG '<' gLt m none i3, subGen_id_of_invG '>' gGt m none i4]

/-- Claim C1, counterexample: the general sanitizer is not idempotent.
On the input consisting of the single line `<foo bar>` — an unknown
lowercase tag with an attribute tail — the first pass yields
backslash-`<foo bar`-backslash-`>`, and because the tag regex of
`_process_text` matches again inside the escaped output (the attribute
tail absorbs the inserted backslash), the second pass escapes the span
again, so applying the sanitizer to its own output changes it. -/
theorem c1_sanitizer_not_idempotent_cex :
    escape_mdx_special_characters ("<foo bar>".toList) = ("\\<foo bar\\>".toList) ∧
    escape_mdx_special_characters (escape_mdx_special_characters ("<foo bar>".toList)) =
      ("\\\\<foo bar\\\\>".toList) ∧
    escape_mdx_special_characters (escape_mdx_special_characters ("<foo bar>".toList)) ≠
      escape_mdx_special_characters ("<foo bar>".toList) := by
  refine ⟨by decide, by decide, by decide⟩

/-- Claim C2, counterexample: on the input `List<T> maps keys to values`
the tag name `T` is uppercase-initial, so `_is_common_html_tag`
classifies `<T>` as a preserved component reference and the sanitizer
returns the line unchanged — it does not produce the escaped form the
claim states. -/
theorem c2_uppercase_tag_not_escaped_cex :
    escape_mdx_special_characters ("List<T> maps keys to values".toList) =
      ("List<T> maps keys to values".toList) ∧
    escape_mdx_special_characters ("List<T> maps keys to values".toList) ≠
      ("List\\<T\\> maps keys to values".toList) := by
  refine ⟨by decide, by decide⟩

/-- Claim C2 (amended): on a non-structural line outside any fence, the
sanitizer maps `List<t> maps keys to values` (lowercase-initial unknown
tag) to its angle-escaped form, leaves `List<T> maps keys to values`
unchanged (uppercase-initial tags are preserved), and maps
`Use (lbrace)config(rbrace) carefully` to its brace-escaped form. -/
theorem c2_escape_examples_amended :
    escape_mdx_special_characters ("List<t> maps keys to values".toList) =
      ("List\\<t\\> maps keys to values".toList) ∧
    escape_mdx_special_characters ("List<T> maps keys to values".toList) =
      ("List<T> maps keys to values".toList) ∧
    escape_mdx_special_characters ("Use \x7bconfig\x7d carefully".toList) =
      ("Use \\\x7bconfig\\\x7d carefully".toList) := by
  refine ⟨by decide, by decide, by decide⟩

/-- Claim C7: the sanitizer returns the input
`<div class="x">hello</div>` unchanged (the tag name `div` is in the
static preserve set), and returns `<MyComponent prop=(lbrace)1(rbrace)/>`
unchanged (uppercase-initial tag name: the whole matched tag span is
preserved, so the braces inside the span are not escaped). -/
theorem c7_preserve_tags :
    escape_mdx_special_characters ("<div class=\"x\">hello</div>".toList) =
      ("<div class=\"x\">hello</div>".toList) ∧
    escape_mdx_special_characters ("<MyComponent prop=\x7b1\x7d/>".toList) =
      ("<MyComponent prop=\x7b1\x7d/>".toList) := by
  refine ⟨by decide, by decide⟩

/-- Claim C3 (code bug): on a file whose content is `See <ES> marker`,
the Fix 2 loop of `clean_api_doc` reaches its `re.sub` call (the line
contains `<` and `>` outside any fence), whose pattern contains the
reversed character range `a-Z`; the call raises `re.error`, the
exception is caught, and the file is written back unchanged — the
occurrence of `<ES>` outside a fence is NOT rewritten to its escaped
form, contrary to the claim.  (Fix 3 alone would perform the rewrite,
as the last conjunct shows, but it is never reached.) -/
theorem c3_clean_api_doc_regex_error_eval :
    cleanTransform ("See <ES> marker".toList) = Except.error "bad character range a-Z" ∧
    clean_api_doc (some ("See <ES> marker".toList)) = some ("See <ES> marker".toList) ∧
    clean_api_doc (some ("See <ES> marker".toList)) ≠ some ("See \\<ES\\> marker".toList) ∧
    fix3 ("See <ES> marker".toList) = ("See \\<ES\\> marker".toList) := by
  refine ⟨by rfl, by decide, by decide, by decide⟩

/-- Claim C4, counterexample: the fence check of
`escape_mdx_special_characters` is applied to the raw line, not the
trimmed line.  The line of two spaces followed by three backticks has
trimmed content matching the fence delimiter pattern, yet the code does
not toggle on it: in the input consisting of that line, then a brace
line, then a bare fence line, the brace is escaped — so the brace line
was processed outside a fence, contradicting the claim. -/
theorem c4_trimmed_fence_cex :
    isFenceLine (pyStrip ("  ```".toList)) = true ∧
    isFenceLine ("  ```".toList) = false ∧
    escape_mdx_special_characters ("  ```\n\x7b\n```".toList) =
      ("  ```\n\\\x7b\n```".toList) := by
  refine ⟨by decide, by decide, by decide⟩

/-- Claim C4 (amended): in the sanitizer's fence state machine the
in-fence flag toggles exactly on lines whose whole untrimmed content
matches the fence delimiter pattern — three backticks followed only by
word characters — and never on a line where backticks appear
mid-sentence; the initial state is outside-fence (`false`), lines are
emitted unchanged while the flag is set, and fence lines themselves are
emitted unchanged. -/
theorem c4_fence_toggle_amended :
    (∀ content : List Char,
       escape_mdx_special_characters content =
         if content = [] then [] else joinNL (processLines false (splitNL content))) ∧
    (∀ (b : Bool) (line : List Char) (rest : List (List Char)),
       processLines b (line :: rest) =
         (if isFenceLine line then line else if b then line else process_line line) ::
           processLines (if isFenceLine line then !b else b) rest) ∧
    (∀ line : List Char,
       isFenceLine line = true ↔ ∃ t, line = bq :: bq :: bq :: t ∧ t.all isWordChar = true) := by
  refine ⟨?_, ?_, ?_⟩
  · intro content
    by_cases h : content = [] <;> simp [escape_mdx_special_characters, h]
  · intro b line rest
    by_cases hf : isFenceLine line <;> by_cases hb : b <;> simp [processLines, hf, hb]
  · intro line
    constructor
    · intro h
      cases line with
      | nil => simp [isFenceLine] at h
      | cons c1 r1 =>
        cases r1 with
        | nil => simp [isFenceLine] at h
        | cons c2 r2 =>
          cases r2 with
          | nil => simp [isFenceLine] at h
          | cons c3 t =>
            simp only [isFenceLine, Bool.and_eq_true, decide_eq_true_eq] at h
            obtain ⟨⟨⟨h1, h2⟩, h3⟩, h4⟩ := h
            exact ⟨t, by rw [h1, h2, h3], h4⟩
    · rintro ⟨t, rfl, ht⟩
      simp [isFenceLine, ht]

lemma isStructural_first (c : Char) (r : List Char) (h : isStructural (c :: r) = true) :
    c = '#' ∨ c = '>' ∨ c = '-' ∨ c = '*' ∨ c = '+' := by
  simp only [isStructural, Bool.or_eq_true] at h
  rcases h with (h | h) | h
  · left
    by_contra hc
    simp [isHeading, List.takeWhile_cons, hc] at h
  · right; left
    cases r with
    | nil => simp [isBlockquote] at h
    | cons d r2 =>
      simp only [isBlockquote, Bool.and_eq_true, decide_eq_true_eq] at h
      exact h.1
  · cases r with
    | nil => simp [isBullet] at h
    | cons d r2 =>
      simp only [isBullet, Bool.and_eq_true, Bool.or_eq_true, decide_eq_true_eq] at h
      rcases h.1 with (h1 | h1) | h1
      · right; right; left; exact h1
      · right; right; right; left; exact h1
      · right; right; right; right; exact h1

lemma isStructural_not_fence (line : List Char) (h : isStructural line = true) :
    isFenceLine line = false := by
  cases line with
  | nil => rfl
  | cons c r =>
    have h5 := isStructural_first c r h
    cases r with
    | nil => rfl
    | cons c2 r2 =>
      cases r2 with
      | nil => rfl
      | cons c3 t =>
        simp only [isFenceLine]
        rcases h5 with h5 | h5 | h5 | h5 | h5 <;> subst h5 <;> simp [bq]

/-- Claim C8: every line outside a fence that begins with a markdown
structural marker — one to six `#` then whitespace, `>` then
whitespace, or a `-`, `*`, `+` bullet then whitespace — is emitted by
the sanitizer's line loop completely unmodified (such a line is never a
fence line, and `_process_line` returns it untouched), even when the
rest of the line contains unknown tag-like sequences. -/
theorem c8_structural_passthrough :
    ∀ (line : List Char) (rest : List (List Char)), isStructural line = true →
      processLines false (line :: rest) = line :: processLines false rest ∧
      process_line line = line := by
  intro line rest h
  have hpl : process_line line = line := by simp [process_line, h]
  have hf : isFenceLine line = false := isStructural_not_fence line h
  exact ⟨by simp [processLines, hf, hpl], hpl⟩

/-- Claim C8, witness: the heading line `## <Heading> discussion`
passes through unchanged even though it contains an unknown tag-like
sequence. -/
theorem c8_structural_passthrough_witness :
    processLines false [("## <Heading> discussion".toList)] =
      [("## <Heading> discussion".toList)] ∧
    process_line ("## <Heading> discussion".toList) = ("## <Heading> discussion".toList) := by
  have h := c8_structural_passthrough ("## <Heading> discussion".toList) [] (by decide)
  exact ⟨h.1, h.2⟩

/-- Claim C9: `clean_api_doc` never raises and preserves content on
failure.  On a missing file (`none`) it returns immediately without
writing; whenever the transformation raises (the caught exception), the
file on disk keeps its original content, because the write happens only
after all transformations succeed; and when the transformation
succeeds, its result is what is written back. -/
theorem c9_clean_api_doc_error_handling :
    clean_api_doc none = none ∧
    (∀ c e, cleanTransform c = Except.error e → clean_api_doc (some c) = some c) ∧
    (∀ c c2, cleanTransform c = Except.ok c2 → clean_api_doc (some c) = some c2) := by
  refine ⟨rfl, ?_, ?_⟩
  · intro c e h
    simp [clean_api_doc, h]
  · intro c c2 h
    simp [clean_api_doc, h]

/-- Claim C9, witness: a file containing angle brackets outside a fence
makes the transformation raise and is kept unchanged; a plain file is
transformed successfully and written back. -/
theorem c9_clean_api_doc_error_handling_witness :
    clean_api_doc (some ("x <b> y".toList)) = some ("x <b> y".toList) ∧
    clean_api_doc (some ("plain text".toList)) = some ("plain text".toList) := by
  refine ⟨?_, ?_⟩
  · exact c9_clean_api_doc_error_handling.2.1 ("x <b> y".toList)
      "bad character range a-Z" (by rfl)
  · exact c9_clean_api_doc_error_handling.2.2 ("plain text".toList) ("plain text".toList) (by rfl)

lemma processLines_append : ∀ (xs ys : List (List Char)) (b : Bool),
    processLines b (xs ++ ys) = processLines b xs ++ processLines (stateAfter b xs) ys := by
  intro xs
  induction xs with
  | nil => intro ys b; rfl
  | cons l r ih =>
    intro ys b
    by_cases hf : isFenceLine l
    · simp [processLines, stateAfter, hf, ih]
    · by_cases hb : b <;> simp [processLines, stateAfter, hf, hb, ih]

lemma processLines_inFence : ∀ (body ys : List (List Char)),
    (∀ l ∈ body, isFenceLine l = false) →
    processLines true (body ++ ys) = body ++ processLines true ys := by
  intro body
  induction body with
  | nil => intro ys _; rfl
  | cons l r ih =>
    intro ys h
    have hl : isFenceLine l = false := h l (List.mem_cons_self l r)
    simp [processLines, hl, ih ys (fun x hx => h x (List.mem_cons_of_mem l hx))]

/-- Claim C5: a well-formed fenced code block is preserved byte for
byte.  If the sanitizer's line loop reaches an opening fence line in
the outside-fence state (`stateAfter false pre = false`) and the block
is later closed by another fence line, every line strictly between the
two delimiters is reproduced unchanged in the output, and processing
resumes normally after the closing fence. -/
theorem c5_fenced_block_preserved :
    ∀ (pre body post : List (List Char)) (f1 f2 : List Char),
      isFenceLine f1 = true → isFenceLine f2 = true →
      (∀ l ∈ body, isFenceLine l = false) →
      stateAfter false pre = false →
      processLines false (pre ++ f1 :: (body ++ f2 :: post)) =
        processLines false pre ++ f1 :: (body ++ f2 :: processLines false post) := by
  intro pre body post f1 f2 h1 h2 hb hs
  rw [processLines_append, hs]
  congr 1
  have step1 : processLines false (f1 :: (body ++ f2 :: post)) =
      f1 :: processLines true (body ++ f2 :: post) := by
    simp [processLines, h1]
  rw [step1]
  congr 1
  rw [processLines_inFence body (f2 :: post) hb]
  congr 1
  simp [processLines, h2]

/-- Claim C5, witness: a concrete document with a fenced block whose
body line contains live MDX syntax is preserved between the fences. -/
theorem c5_fenced_block_preserved_witness :
    processLines false ([("intro".toList)] ++ ("```py".toList) ::
        ([("x <b> \x7by\x7d".toList)] ++ ("```".toList) :: [("outro <q> z".toList)])) =
      processLines false [("intro".toList)] ++ ("```py".toList) ::
        ([("x <b> \x7by\x7d".toList)] ++ ("```".toList) ::
          processLines false [("outro <q> z".toList)]) := by
  exact c5_fenced_block_preserved [("intro".toList)] [("x <b> \x7by\x7d".toList)]
    [("outro <q> z".toList)] ("```py".toList) ("```".toList)
    (by decide) (by decide) (by decide) (by decide)

lemma procInline_pending_no_bq : ∀ (suf pend prose : List Char), bq ∉ suf →
    procInlineAux prose (some pend) suf = process_text (prose ++ bq :: (pend ++ suf)) := by
  intro suf
  induction suf with
  | nil => intro pend prose _; simp [procInlineAux]
  | cons c r ih =>
    intro pend prose h
    have hc : ¬(c = bq) := fun hcb => h (hcb ▸ List.mem_cons_self c r)
    have hr : bq ∉ r := fun hx => h (List.mem_cons_of_mem c hx)
    simp only [procInlineAux, if_neg hc]
    rw [ih (pend ++ [c]) prose hr]
    simp

lemma procInline_span : ∀ (mid pend prose post : List Char), bq ∉ mid → pend ++ mid ≠ [] →
    procInlineAux prose (some pend) (mid ++ bq :: post) =
      process_text prose ++ bq :: (pend ++ mid) ++ bq :: procInlineAux [] none post := by
  intro mid
  induction mid with
  | nil =>
    intro pend prose post _ hne
    have hp : ¬(pend = []) := by simpa using hne
    simp only [List.nil_append, procInlineAux, if_pos rfl, if_neg hp]
    simp
  | cons c mid2 ih =>
    intro pend prose post h hne
    have hc : ¬(c = bq) := fun hcb => h (hcb ▸ List.mem_cons_self c mid2)
    have hm : bq ∉ mid2 := fun hx => h (List.mem_cons_of_mem c hx)
    simp only [List.cons_append, procInlineAux, if_neg hc, List.append_eq]
    rw [ih (pend ++ [c]) prose post hm (by simp)]
    simp

lemma procInline_first_span : ∀ (pre mid post prose : List Char),
    bq ∉ pre → bq ∉ mid → mid ≠ [] →
    procInlineAux prose none (pre ++ bq :: (mid ++ bq :: post)) =
      process_text (prose ++ pre) ++ bq :: mid ++ bq :: procInlineAux [] none post := by
  intro pre
  induction pre with
  | nil =>
    intro mid post prose _ hm hne
    simp only [List.nil_append, procInlineAux, if_pos rfl]
    rw [procInline_span mid [] prose post hm (by simpa using hne)]
    simp
  | cons c pre2 ih =>
    intro mid post prose h hm hne
    have hc : ¬(c = bq) := fun hcb => h (hcb ▸ List.mem_cons_self c pre2)
    have hp : bq ∉ pre2 := fun hx => h (List.mem_cons_of_mem c hx)
    simp only [List.cons_append, procInlineAux, if_neg hc, List.append_eq]
    rw [ih mid post (prose ++ [c]) hp hm hne]
    simp

lemma procInline_unmatched : ∀ (pre suf prose : List Char), bq ∉ pre → bq ∉ suf →
    procInlineAux prose none (pre ++ bq :: suf) = process_text (prose ++ (pre ++ bq :: suf)) := by
  intro pre
  induction pre with
  | nil =>
    intro suf prose _ hs
    simp only [List.nil_append, procInlineAux, if_pos rfl]
    rw [procInline_pending_no_bq suf [] prose hs]
    simp
  | cons c pre2 ih =>
    intro suf prose h hs
    have hc : ¬(c = bq) := fun hcb => h (hcb ▸ List.mem_cons_self c pre2)
    have hp : bq ∉ pre2 := fun hx => h (List.mem_cons_of_mem c hx)
    simp only [List.cons_append, procInlineAux, if_neg hc, List.append_eq]
    rw [ih suf (prose ++ [c]) hp hs]
    simp

/-- Claim C6: on a non-structural line, an inline code span delimited
by single backticks appears unchanged in `_process_line`'s output — the
prose before it is forwarded to the tag/character escaper
`_process_text` and the remainder is processed independently — and a
line whose single backtick is unmatched (no further backtick) is
treated as plain prose in its entirety. -/
theorem c6_inline_code_spans :
    (∀ (pre mid post : List Char),
       isStructural (pre ++ bq :: (mid ++ bq :: post)) = false →
       bq ∉ pre → bq ∉ mid → mid ≠ [] →
       process_line (pre ++ bq :: (mid ++ bq :: post)) =
         process_text pre ++ bq :: mid ++ bq :: procInlineAux [] none post) ∧
    (∀ (pre suf : List Char),
       isStructural (pre ++ bq :: suf) = false →
       bq ∉ pre → bq ∉ suf →
       process_line (pre ++ bq :: suf) = process_text (pre ++ bq :: suf)) := by
  constructor
  · intro pre mid post hs h1 h2 h3
    rw [process_line, if_neg (by simp [hs])]
    rw [procInline_first_span pre mid post [] h1 h2 h3]
    simp
  · intro pre suf hs h1 h2
    rw [process_line, if_neg (by simp [hs])]
    rw [procInline_unmatched pre suf [] h1 h2]
    simp

/-- Claim C6, witness: in the line `the text (bq)a<B>(lbrace)c(rbrace)(bq) stays intact`
the span between backticks is kept intact and the surrounding prose is
forwarded to the escaper; and the line `odd (bq)tick` with an unmatched
backtick is processed entirely as prose. -/
theorem c6_inline_code_spans_witness :
    process_line (("the text ".toList) ++ bq :: (("a<B>\x7bc\x7d".toList) ++ bq :: (" stays intact".toList))) =
      process_text ("the text ".toList) ++ bq :: ("a<B>\x7bc\x7d".toList) ++ bq ::
        procInlineAux [] none (" stays intact".toList) ∧
    process_line (("odd ".toList) ++ bq :: ("tick".toList)) =
      process_text (("odd ".toList) ++ bq :: ("tick".toList)) := by
  constructor
  · exact c6_inline_code_spans.1 ("the text ".toList) ("a<B>\x7bc\x7d".toList)
      (" stays intact".toList) (by decide) (by decide) (by decide) (by decide)
  · exact c6_inline_code_spans.2 ("odd ".toList) ("tick".toList) (by decide) (by decide) (by decide)

lemma subGen_not_mem (e : Char) (g : Option Char → Option Char → Bool) (x : Char)
    (h1 : x ≠ bs) : ∀ (l : List Char) (p : Option Char), x ∉ l → x ∉ subGen e g p l := by
  intro l
  induction l with
  | nil => intro p _; simp [subGen]
  | cons c r ih =>
    intro p hl
    have hne : x ≠ c := fun he => hl (he ▸ List.mem_cons_self c r)
    have hr : x ∉ r := fun hx => hl (List.mem_cons_of_mem c hx)
    simp only [subGen]
    split_ifs with hcond <;> simp only [List.mem_cons, not_or] <;>
      exact ⟨by assumption, by first | exact ⟨hne, ih (some c) hr⟩ | exact ih (some c) hr⟩

lemma esc_not_mem (x : Char) (h1 : x ≠ bs) (l : List Char) (hl : x ∉ l) :
    x ∉ escape_special_chars l :=
  subGen_not_mem '>' gGt x h1 _ none (subGen_not_mem '<' gLt x h1 _ none
    (subGen_not_mem rb gBrace x h1 _ none (subGen_not_mem lb gBrace x h1 _ none hl)))

lemma escapeTagSpan_not_mem (x : Char) (h1 : x ≠ bs) (s : List Char) (hs : x ∉ s) :
    x ∉ escapeTagSpan s := by
  intro hx
  simp only [escapeTagSpan, List.mem_flatten, List.mem_map] at hx
  obtain ⟨piece, ⟨y, hys, rfl⟩, hcp⟩ := hx
  by_cases e1 : y = '<'
  · simp [e1] at hcp
    rcases hcp with rfl | rfl
    · exact h1 rfl
    · exact hs (e1 ▸ hys)
  · by_cases e2 : y = '>'
    · simp [e1, e2] at hcp
      rcases hcp with rfl | rfl
      · exact h1 rfl
      · exact hs (e2 ▸ hys)
    · simp [e1, e2] at hcp
      exact hs (hcp ▸ hys)

/-- The characters buffered in `procTextAux`'s candidate component. -/
def candChars : Option (List Char × Option (List Char)) → List Char
  | none => []
  | some (nm, none) => nm
  | some (nm, some tl) => nm ++ tl

lemma not_mem_append2 {x : Char} {a b : List Char} (ha : x ∉ a) (hb : x ∉ b) : x ∉ a ++ b := by
  intro hx
  rcases List.mem_append.mp hx with h | h
  · exact ha h
  · exact hb h

lemma not_mem_cons2 {x c : Char} {r : List Char} (hc : x ≠ c) (hr : x ∉ r) : x ∉ c :: r := by
  intro hx
  rcases List.mem_cons.mp hx with h | h
  · exact hc h
  · exact hr h

lemma emitTag_not_mem (x : Char) (h1 : x ≠ bs) (h2 : x ≠ '<') (h3 : x ≠ '>')
    (prose nm tl rest : List Char) (hp : x ∉ prose) (hn : x ∉ nm) (ht : x ∉ tl)
    (hr : x ∉ rest) : x ∉ emitTag prose nm tl rest := by
  have hspan : x ∉ '<' :: nm ++ tl ++ ['>'] :=
    not_mem_append2 (not_mem_append2 (not_mem_cons2 h2 hn) ht)
      (not_mem_cons2 h3 (List.not_mem_nil x))
  unfold emitTag
  refine not_mem_append2 (not_mem_append2 (esc_not_mem x h1 prose hp) ?_) hr
  split_ifs with hcom
  · exact hspan
  · exact escapeTagSpan_not_mem x h1 _ hspan

lemma procTextAux_not_mem (x : Char) (h1 : x ≠ bs) (h2 : x ≠ '<') (h3 : x ≠ '>') :
    ∀ (l prose : List Char) (cand : Option (List Char × Option (List Char))),
      x ∉ prose → x ∉ candChars cand → x ∉ l → x ∉ procTextAux prose cand l := by
  intro l
  induction l with
  | nil =>
    intro prose cand hp hc _
    rcases cand with _ | ⟨nm, _ | tl⟩
    · exact esc_not_mem x h1 prose hp
    · exact esc_not_mem x h1 _ (not_mem_append2 hp (not_mem_cons2 h2 hc))
    · simp only [candChars] at hc
      exact esc_not_mem x h1 _ (not_mem_append2 (not_mem_append2 hp
        (not_mem_cons2 h2 (fun hx => hc (List.mem_append.mpr (Or.inl hx)))))
        (fun hx => hc (List.mem_append.mpr (Or.inr hx))))
  | cons c r ih =>
    intro prose cand hp hc hl
    have hne : x ≠ c := fun he => hl (he ▸ List.mem_cons_self c r)
    have hr : x ∉ r := fun hx => hl (List.mem_cons_of_mem c hx)
    have hxc : x ∉ [c] := not_mem_cons2 hne (List.not_mem_nil x)
    rcases cand with _ | ⟨nm, _ | tl⟩
    · simp only [procTextAux]
      split_ifs with hlt
      · exact ih prose (some ([], none)) hp (List.not_mem_nil x) hr
      · exact ih (prose ++ [c]) none (not_mem_append2 hp hxc) (List.not_mem_nil x) hr
    · simp only [candChars] at hc
      simp only [procTextAux]
      split_ifs with hnm ha hlt hgtc htag hsp hlt2
      · exact ih prose (some ([c], none)) hp hxc hr
      · exact ih (prose ++ ['<']) (some ([], none))
          (not_mem_append2 hp (not_mem_cons2 h2 (List.not_mem_nil x))) (List.not_mem_nil x) hr
      · exact ih (prose ++ ['<', c]) none
          (not_mem_append2 hp (not_mem_cons2 h2 hxc)) (List.not_mem_nil x) hr
      · exact emitTag_not_mem x h1 h2 h3 prose nm [] _ hp hc (List.not_mem_nil x)
          (ih [] none (List.not_mem_nil x) (List.not_mem_nil x) hr)
      · exact ih prose (some (nm ++ [c], none)) hp (not_mem_append2 hc hxc) hr
      · exact ih prose (some (nm, some [c])) hp (not_mem_append2 hc hxc) hr
      · exact ih (prose ++ '<' :: nm) (some ([], none))
          (not_mem_append2 hp (not_mem_cons2 h2 hc)) (List.not_mem_nil x) hr
      · exact ih (prose ++ '<' :: nm ++ [c]) none
          (not_mem_append2 (not_mem_append2 hp (not_mem_cons2 h2 hc)) hxc)
          (List.not_mem_nil x) hr
    · simp only [candChars] at hc
      simp only [procTextAux]
      split_ifs with hgtc
      · exact emitTag_not_mem x h1 h2 h3 prose nm tl _ hp
          (fun hx => hc (List.mem_append.mpr (Or.inl hx)))
          (fun hx => hc (List.mem_append.mpr (Or.inr hx)))
          (ih [] none (List.not_mem_nil x) (List.not_mem_nil x) hr)
      · refine ih prose (some (nm, some (tl ++ [c]))) hp ?_ hr
        simp only [candChars]
        exact not_mem_append2 (fun hx => hc (List.mem_append.mpr (Or.inl hx)))
          (not_mem_append2 (fun hx => hc (List.mem_append.mpr (Or.inr hx))) hxc)

lemma process_text_not_mem (x : Char) (h1 : x ≠ bs) (h2 : x ≠ '<') (h3 : x ≠ '>')
    (t : List Char) (ht : x ∉ t) : x ∉ process_text t :=
  procTextAux_not_mem x h1 h2 h3 t [] none (List.not_mem_nil x) (List.not_mem_nil x) ht

lemma procInlineAux_not_mem (x : Char) (h1 : x ≠ bs) (h2 : x ≠ '<') (h3 : x ≠ '>')
    (h4 : x ≠ bq) :
    ∀ (l prose : List Char) (pend : Option (List Char)),
      x ∉ prose → x ∉ (pend.getD []) → x ∉ l → x ∉ procInlineAux prose pend l := by
  intro l
  induction l with
  | nil =>
    intro prose pend hp hd _
    rcases pend with _ | p
    · exact process_text_not_mem x h1 h2 h3 prose hp
    · exact process_text_not_mem x h1 h2 h3 _
        (not_mem_append2 hp (not_mem_cons2 h4 hd))
  | cons c r ih =>
    intro prose pend hp hd hl
    have hne : x ≠ c := fun he => hl (he ▸ List.mem_cons_self c r)
    have hr : x ∉ r := fun hx => hl (List.mem_cons_of_mem c hx)
    have hxc : x ∉ [c] := not_mem_cons2 hne (List.not_mem_nil x)
    rcases pend with _ | p
    · simp only [procInlineAux]
      split_ifs with hb
      · exact ih prose (some []) hp (List.not_mem_nil x) hr
      · exact ih (prose ++ [c]) none (not_mem_append2 hp hxc) (List.not_mem_nil x) hr
    · simp only [procInlineAux, Option.getD] at hd ⊢
      split_ifs with hb hpe
      · exact ih (prose ++ [bq]) (some [])
          (not_mem_append2 hp (not_mem_cons2 h4 (List.not_mem_nil x)))
          (List.not_mem_nil x) hr
      · exact not_mem_append2 (not_mem_append2 (process_text_not_mem x h1 h2 h3 prose hp)
          (not_mem_cons2 h4 hd)) (not_mem_cons2 h4
            (ih [] none (List.not_mem_nil x) (List.not_mem_nil x) hr))
      · exact ih prose (some (p ++ [c])) hp (not_mem_append2 hd hxc) hr

lemma process_line_not_mem (x : Char) (h1 : x ≠ bs) (h2 : x ≠ '<') (h3 : x ≠ '>')
    (h4 : x ≠ bq) (l : List Char) (hl : x ∉ l) : x ∉ process_line l := by
  unfold process_line
  split_ifs with hs
  · exact hl
  · exact procInlineAux_not_mem x h1 h2 h3 h4 l [] none (List.not_mem_nil x)
      (List.not_mem_nil x) hl

lemma splitNL_ne_nil : ∀ s : List Char, splitNL s ≠ [] := by
  intro s
  cases s with
  | nil => simp [splitNL]
  | cons c r =>
    simp only [splitNL]
    split_ifs with hc
    · simp
    · cases h : splitNL r with
      | nil => simp
      | cons a b => simp

lemma splitNL_mem_no_nl : ∀ (s : List Char) (l : List Char), l ∈ splitNL s → '\n' ∉ l := by
  intro s
  induction s with
  | nil =>
    intro l hl
    simp [splitNL] at hl
    simp [hl]
  | cons c r ih =>
    intro l hl
    simp only [splitNL] at hl
    split_ifs at hl with hc
    · rcases List.mem_cons.mp hl with rfl | hl
      · simp
      · exact ih l hl
    · cases hsp : splitNL r with
      | nil => exact absurd hsp (splitNL_ne_nil r)
      | cons a b =>
        rw [hsp] at hl
        rcases List.mem_cons.mp hl with rfl | hl
        · have ha : '\n' ∉ a := ih a (hsp ▸ List.mem_cons_self a b)
          exact not_mem_cons2 (fun he => hc he.symm) ha
        · exact ih l (hsp ▸ List.mem_cons_of_mem a hl)

lemma splitNL_append (l rest : List Char) (hl : '\n' ∉ l) :
    splitNL (l ++ '\n' :: rest) = l :: splitNL rest := by
  induction l with
  | nil => simp [splitNL]
  | cons c l2 ih =>
    have hc : ¬(c = '\n') := fun he => hl (he ▸ List.mem_cons_self c l2)
    have h2 : '\n' ∉ l2 := fun hx => hl (List.mem_cons_of_mem c hx)
    simp only [List.cons_append, splitNL, if_neg hc, List.append_eq, ih h2]

lemma splitNL_single (l : List Char) (hl : '\n' ∉ l) : splitNL l = [l] := by
  induction l with
  | nil => rfl
  | cons c l2 ih =>
    have hc : ¬(c = '\n') := fun he => hl (he ▸ List.mem_cons_self c l2)
    have h2 : '\n' ∉ l2 := fun hx => hl (List.mem_cons_of_mem c hx)
    simp only [splitNL, if_neg hc, ih h2]

lemma splitNL_joinNL : ∀ ls : List (List Char), ls ≠ [] → (∀ l ∈ ls, '\n' ∉ l) →
    splitNL (joinNL ls) = ls := by
  intro ls
  induction ls with
  | nil => intro h _; exact absurd rfl h
  | cons l rest ih =>
    intro _ hn
    cases rest with
    | nil => exact splitNL_single l (hn l (List.mem_cons_self l []))
    | cons l2 r2 =>
      have hj : joinNL (l :: l2 :: r2) = l ++ '\n' :: joinNL (l2 :: r2) := rfl
      rw [hj, splitNL_append l _ (hn l (List.mem_cons_self l (l2 :: r2)))]
      rw [ih (by simp) (fun x hx => hn x (List.mem_cons_of_mem l hx))]

lemma processLines_length : ∀ (b : Bool) (ls : List (List Char)),
    (processLines b ls).length = ls.length := by
  intro b ls
  induction ls generalizing b with
  | nil => rfl
  | cons l r ih =>
    simp only [processLines]
    split_ifs <;> simp [ih]

lemma processLines_no_nl : ∀ (b : Bool) (ls : List (List Char)),
    (∀ l ∈ ls, '\n' ∉ l) → ∀ l2 ∈ processLines b ls, '\n' ∉ l2 := by
  intro b ls
  induction ls generalizing b with
  | nil => intro _ l2 h2; simp [processLines] at h2
  | cons l r ih =>
    intro h l2 h2
    have hl : '\n' ∉ l := h l (List.mem_cons_self l r)
    have hr : ∀ x ∈ r, '\n' ∉ x := fun x hx => h x (List.mem_cons_of_mem l hx)
    simp only [processLines] at h2
    split_ifs at h2 with h3 h4
    · rcases List.mem_cons.mp h2 with rfl | h2
      · exact hl
      · exact ih _ hr l2 h2
    · rcases List.mem_cons.mp h2 with rfl | h2
      · exact hl
      · exact ih _ hr l2 h2
    · rcases List.mem_cons.mp h2 with rfl | h2
      · exact process_line_not_mem '\n' (by decide) (by decide) (by decide) (by decide) l hl
      · exact ih _ hr l2 h2

/-- Claim C10: the sanitizer preserves the newline structure of its
input — the output has exactly as many lines as the input (each input
line maps to exactly one output line, and processed lines never acquire
a newline) — and the empty string maps to the empty string. -/
theorem c10_line_count_preserved :
    (∀ s : List Char, numLines (escape_mdx_special_characters s) = numLines s) ∧
    escape_mdx_special_characters [] = [] := by
  refine ⟨?_, rfl⟩
  intro s
  by_cases hs : s = []
  · subst hs; rfl
  · unfold escape_mdx_special_characters numLines
    rw [if_neg hs]
    have h1 : ∀ l ∈ splitNL s, '\n' ∉ l := fun l hl => splitNL_mem_no_nl s l hl
    have h2 : ∀ l ∈ processLines false (splitNL s), '\n' ∉ l :=
      processLines_no_nl false (splitNL s) h1
    have h3 : processLines false (splitNL s) ≠ [] := by
      intro h
      have hlen := processLines_length false (splitNL s)
      rw [h] at hlen
      exact splitNL_ne_nil s (List.length_eq_zero.mp hlen.symm)
    rw [splitNL_joinNL _ h3 h2, processLines_length]
